import Mathlib

/-!
# Verification of the cut-pursuit d1 quadratic-l1-bounds core

Shallow embedding of `src/cp_pfdr_d1_ql1b.cpp` (class `Cp_d1_ql1b`).
Real values (`real_t`, contractually IEEE 754) are modelled by exact
rationals `ℚ`; values that may legitimately hold the infinities
`±INF_REAL` (homogeneous bounds, flow capacities) are modelled by the
extended type `XQ` below.  Nullable borrowed arrays are `Option (ℕ → ℚ)`;
flat C arrays are total functions from indices.  The fatal
`exit(EXIT_FAILURE)` paths of the configuration setters are modelled by
`Except Unit`.
-/

namespace CpQl1b


/-- Extended rationals with `-∞` and `+∞`, modelling IEEE-754 reals where the
code relies on infinite values (the constructor statically asserts IEC 559
semantics precisely so that negation/comparison of infinities is safe). -/
inductive XQ where
  | ninf : XQ
  | fin : ℚ → XQ
  | pinf : XQ
deriving DecidableEq

/-- Strict `<` on `XQ`, mirroring IEEE comparisons with `±∞`. -/
def XQ.blt : XQ → XQ → Bool
  | .ninf, .ninf => false
  | .ninf, _ => true
  | _, .ninf => false
  | .pinf, _ => false
  | .fin _, .pinf => true
  | .fin q, .fin r => decide (q < r)

/-- Addition on `XQ`; infinities absorb (the code only ever adds finite
l1 weights to finite gradient capacities, so mixed cases are irrelevant). -/
def XQ.add : XQ → XQ → XQ
  | .fin q, .fin r => .fin (q + r)
  | .ninf, _ => .ninf
  | .pinf, _ => .pinf
  | .fin _, .ninf => .ninf
  | .fin _, .pinf => .pinf

/-- Modelled from the spec: the matricial shape tag stored in the `size_t N`
field.  The C++ header (not part of the core source) encodes the shape with
reserved sentinel values `DIAG_ATA` and `FULL_ATA` and a predicate `IS_ATA`;
the spec (§3, §9) describes it as a tag with variants *direct* (a true
observation count `N`), *full premultiplied* and *diagonal/scaled-identity
premultiplied*, with `IS_ATA` true exactly on the premultiplied variants. -/
inductive NShape where
  | direct : ℕ → NShape
  | fullATA : NShape
  | diagATA : NShape
deriving DecidableEq

/-- `IS_ATA(N)`: true on the premultiplied sentinels. -/
def IS_ATA : NShape → Bool
  | .direct _ => false
  | .fullATA => true
  | .diagATA => true

/-- State of a `Cp_d1_ql1b` solver instance: the graph and partition data
owned by the base engine, plus the quadratic / l1 / bounds configuration and
the owned residual buffer. -/
structure CP where
  /-- number of vertices -/
  V : ℕ
  /-- number of edges -/
  E : ℕ
  /-- CSR offsets: edges of vertex `v` are `[first_edge v, first_edge (v+1))` -/
  first_edge : ℕ → ℕ
  /-- target vertex of each edge -/
  adj_vertices : ℕ → ℕ
  /-- per-edge d1 weights, or null -/
  edge_weights : Option (ℕ → ℚ)
  /-- homogeneous d1 weight used when `edge_weights` is null -/
  homo_edge_weight : ℚ
  /-- active/inactive flag of each edge -/
  active : ℕ → Bool
  /-- number of components of the current partition -/
  rV : ℕ
  /-- vertex → component id -/
  comp_assign : ℕ → ℕ
  /-- vertices reordered by component -/
  comp_list : ℕ → ℕ
  /-- CSR offsets: members of component `rv` are positions
  `[first_vertex rv, first_vertex (rv+1))` of `comp_list` -/
  first_vertex : ℕ → ℕ
  /-- per-component saturation flags -/
  saturated : ℕ → Bool
  /-- reduced solution: one value per component -/
  rX : ℕ → ℚ
  /-- previous round's reduced values -/
  last_rX : ℕ → ℚ
  /-- previous round's component assignment (`get_tmp_comp_assign`) -/
  tmp_comp_assign : ℕ → ℕ
  /-- observations (or `AᵗY` in the premultiplied shapes), or null -/
  Y : Option (ℕ → ℚ)
  /-- matricial shape tag -/
  N : NShape
  /-- the operator array (flat, interpretation depends on `N`), or null -/
  A : Option (ℕ → ℚ)
  /-- scalar identity coefficient -/
  a : ℚ
  /-- owned residual buffer `R = Y - A x` (contents), or null -/
  R : Option (ℕ → ℚ)
  /-- allocation length of the residual buffer (0 when null) -/
  Rlen : ℕ
  /-- per-vertex l1 weights, or null -/
  l1_weights : Option (ℕ → ℚ)
  /-- homogeneous l1 weight used when `l1_weights` is null -/
  homo_l1_weight : ℚ
  /-- per-vertex l1 targets, or null (null ⇒ targets are zero) -/
  Yl1 : Option (ℕ → ℚ)
  /-- per-vertex lower bounds, or null -/
  low_bnd : Option (ℕ → ℚ)
  /-- per-vertex upper bounds, or null -/
  upp_bnd : Option (ℕ → ℚ)
  /-- homogeneous lower bound (default `-INF_REAL`) -/
  homo_low_bnd : XQ
  /-- homogeneous upper bound (default `+INF_REAL`) -/
  homo_upp_bnd : XQ
  /-- iteration cap of the delegated proximal solver (`pfdr_it`) -/
  pfdr_it : ℕ
  /-- relative-evolution tolerance -/
  dif_tol : ℚ
  /-- numerical floor `eps` -/
  eps : ℚ

/-- `Y_(n)` macro: observation entry, null array reads as `0`. -/
def CP.Yval (s : CP) (n : ℕ) : ℚ := match s.Y with | some f => f n | none => 0

/-- `Yl1_(v)` macro: l1 target entry, null array reads as `0`. -/
def CP.Yl1val (s : CP) (v : ℕ) : ℚ :=
  match s.Yl1 with | some f => f v | none => 0

/-- `L1_WEIGHTS_(v)` macro: per-vertex l1 weight or homogeneous weight. -/
def CP.l1w (s : CP) (v : ℕ) : ℚ :=
  match s.l1_weights with | some f => f v | none => s.homo_l1_weight

/-- `EDGE_WEIGHTS_(e)` macro: per-edge d1 weight or homogeneous weight. -/
def CP.ew (s : CP) (e : ℕ) : ℚ :=
  match s.edge_weights with | some f => f e | none => s.homo_edge_weight

/-- entry of the operator array (reading the null array is a caller-contract
violation in the C++; modelled as `0`). -/
def CP.Aval (s : CP) (i : ℕ) : ℚ := match s.A with | some f => f i | none => 0

/-- entry of the residual buffer (reading the null buffer is a
caller-contract violation in the C++; modelled as `0`). -/
def CP.Rval (s : CP) (n : ℕ) : ℚ := match s.R with | some f => f n | none => 0

/-- `Cp_d1_ql1b::set_quadratic` (lines 48-58).  A null operator array with a
zero scalar coefficient overwrites the local `N` with the no-quadratic
sentinel `DIAG_ATA` before anything else; the residual buffer is then freed
and re-allocated of length `N` exactly when the stored shape is the direct
matricial one.  `fresh` stands for the indeterminate contents of the freshly
`malloc`ed buffer. -/
def set_quadratic (s : CP) (Y : Option (ℕ → ℚ)) (N : NShape)
    (A : Option (ℕ → ℚ)) (a : ℚ) (fresh : ℕ → ℚ) : CP :=
  { s with
    Y := Y,
    N := if A.isNone ∧ a = 0 then NShape.diagATA else N,
    A := A,
    a := a,
    R := if IS_ATA (if A.isNone ∧ a = 0 then NShape.diagATA else N) then none
         else some fresh,
    Rlen := (match (if A.isNone ∧ a = 0 then NShape.diagATA else N) with
             | NShape.direct n => n
             | _ => 0) }

/-- `Cp_d1_ql1b::set_l1` (lines 60-71): a negative homogeneous l1 weight with
no per-vertex weight array is reported and terminates the process
(`exit(EXIT_FAILURE)`), modelled as `Except.error`, before the fields are
assigned. -/
def set_l1 (s : CP) (w : Option (ℕ → ℚ)) (hw : ℚ) (t : Option (ℕ → ℚ)) :
    Except Unit CP :=
  if w.isNone ∧ hw < 0 then .error ()
  else .ok { s with l1_weights := w, homo_l1_weight := hw, Yl1 := t }

/-- `Cp_d1_ql1b::set_bounds` (lines 73-86): a homogeneous lower bound greater
than the homogeneous upper bound, with no per-vertex bound arrays, is
reported and terminates the process, modelled as `Except.error`, before the
fields are assigned. -/
def set_bounds (s : CP) (lb : Option (ℕ → ℚ)) (hl : XQ)
    (ub : Option (ℕ → ℚ)) (hu : XQ) : Except Unit CP :=
  if lb.isNone ∧ ub.isNone ∧ XQ.blt hu hl then .error ()
  else .ok { s with low_bnd := lb, homo_low_bnd := hl,
                    upp_bnd := ub, homo_upp_bnd := hu }

/-- Concrete instantiation of `set_quadratic_residual`: the no-quadratic
call (`A = null`, `a = 0`) on a default state stores `DIAG_ATA` and keeps no
residual buffer. -/
def CP.default0 : CP where
  V := 1
  E := 0
  first_edge := fun _ => 0
  adj_vertices := fun _ => 0
  edge_weights := none
  homo_edge_weight := 1
  active := fun _ => false
  rV := 1
  comp_assign := fun _ => 0
  comp_list := fun i => i
  first_vertex := fun i => min i 1
  saturated := fun _ => false
  rX := fun _ => 0
  last_rX := fun _ => 0
  tmp_comp_assign := fun _ => 0
  Y := none
  N := .diagATA
  A := none
  a := 1
  R := none
  Rlen := 0
  l1_weights := none
  homo_l1_weight := 0
  Yl1 := none
  low_bnd := none
  upp_bnd := none
  homo_low_bnd := .ninf
  homo_upp_bnd := .pinf
  pfdr_it := 10000
  dif_tol := 1/1000
  eps := 1/1000000000

/-- `solve_univertex_problem` (lines 104-204), direct matricial case helper:
`rA[m] = Σ_v A[m + N v]`, the `m`-th entry of the column-sum vector `A·1`. -/
def uni_rA (s : CP) (n0 m : ℕ) : ℚ :=
  ∑ v in Finset.range s.V, s.Aval (m + n0 * v)

/-- `y = ⟨A·1 | Y⟩` as aggregated by `solve_univertex_problem` per shape
(lines 107-149): direct shape correlates the column sums with `Y`; the
premultiplied shapes sum `Y` (which already holds `AᵗY`) when the operator
is configured. -/
def uni_y (s : CP) : ℚ :=
  match s.N with
  | .direct n0 => ∑ m in Finset.range n0, uni_rA s n0 m * s.Yval m
  | _ =>
    if s.A.isSome ∨ s.a ≠ 0 then
      (match s.Y with
       | some Yf => ∑ v in Finset.range s.V, Yf v
       | none => 0)
    else 0

/-- `aa = ‖A·1‖²` as aggregated by `solve_univertex_problem` per shape
(lines 107-149). -/
def uni_aa (s : CP) : ℚ :=
  match s.N with
  | .direct n0 => ∑ m in Finset.range n0, uni_rA s n0 m * uni_rA s n0 m
  | .fullATA =>
    if s.A.isSome ∨ s.a ≠ 0 then
      ∑ u in Finset.range s.V, ∑ v in Finset.range s.V, s.Aval (s.V * u + v)
    else 0
  | .diagATA =>
    if s.A.isSome ∨ s.a ≠ 0 then
      (match s.A with
       | some Af => ∑ v in Finset.range s.V, Af v
       | none => if s.a ≠ 0 then (s.V : ℚ) else 0)
    else 0

/-- total l1 weight `wl1` aggregated by `solve_univertex_problem`
(lines 152-166). -/
def uni_wl1 (s : CP) : ℚ :=
  match s.l1_weights with
  | some w => ∑ v in Finset.range s.V, w v
  | none => if s.homo_l1_weight ≠ 0 then (s.V : ℚ) * s.homo_l1_weight else 0

/-- the (weighted) median `yl1` of the l1 targets (lines 152-166).  Modelled
from the spec: the selection utilities `wth_element` / `nth_element_idx`
(`wth_element.hpp`, outside the core source) are exposed by the spec (§6)
only as "weighted median of a value subset given parallel weights" and
"unweighted median-by-rank selection"; their values enter here as the opaque
inputs `wmed` (weighted median, used with a per-vertex weight array) and
`med` (median by rank, used with a homogeneous weight). -/
def uni_yl1 (s : CP) (wmed med : ℚ) : ℚ :=
  match s.l1_weights with
  | some _ => if s.Yl1.isSome then wmed else 0
  | none => if s.homo_l1_weight ≠ 0 ∧ s.Yl1.isSome then med else 0

/-- soft-threshold closed form of the least-square + l1 solution
(lines 168-171). -/
def uni_soft (y aa wl1 yl1 : ℚ) : ℚ :=
  if y - wl1 > aa * yl1 then (y - wl1) / aa
  else if y + wl1 < aa * yl1 then (y + wl1) / aa
  else yl1

/-- aggregated lower bound (lines 173-183): running maximum over the
per-vertex lower bounds starting from `-INF_REAL`, or the homogeneous
lower bound. -/
def uni_low (s : CP) : XQ :=
  match s.low_bnd with
  | some lb => (List.range s.V).foldl
      (fun acc v => if XQ.blt acc (.fin (lb v)) then .fin (lb v) else acc)
      .ninf
  | none => s.homo_low_bnd

/-- aggregated upper bound (lines 186-196): running minimum over the
per-vertex upper bounds starting from `+INF_REAL`, or the homogeneous
upper bound. -/
def uni_upp (s : CP) : XQ :=
  match s.upp_bnd with
  | some ub => (List.range s.V).foldl
      (fun acc v => if XQ.blt (.fin (ub v)) acc then .fin (ub v) else acc)
      .pinf
  | none => s.homo_upp_bnd

/-- the value `*uX` returned by `solve_univertex_problem`: soft-threshold
solution, projected first onto the aggregated lower bound (line 184) and
then onto the aggregated upper bound (line 197). -/
def univertex (s : CP) (wmed med : ℚ) : XQ :=
  let x0 : XQ :=
    .fin (uni_soft (uni_y s) (uni_aa s) (uni_wl1 s) (uni_yl1 s wmed med))
  let x1 : XQ := if XQ.blt x0 (uni_low s) then uni_low s else x0
  if XQ.blt (uni_upp s) x1 then uni_upp s else x1

/-- residual refresh `R = Y - rA·uX` at the end of
`solve_univertex_problem` (lines 199-203), direct matricial case only. -/
def univertexR (s : CP) (uX : ℚ) : Option (ℕ → ℚ) :=
  match s.N with
  | .direct n0 => some (fun m => s.Yval m - uni_rA s n0 m * uX)
  | _ => s.R

/-- the reduced matricial-shape decision of `solve_reduced_problem`
(line 224):
`size_t rN = !IS_ATA(rN) && rV < (2*N*pfdr_it)/(N + pfdr_it) ? FULL_ATA : N;`
The condition reads the very `rN` being declared, i.e. an *uninitialized*
variable (undefined behaviour); its indeterminate initial value is the
parameter `rN0`.  `numN` is the numeric value held by the `size_t N` field
(the observation count in the direct shape, a reserved sentinel value
otherwise) and the division is the C++ truncating integer division. -/
def reducedShapeDecision (rN0 : NShape) (N : NShape) (numN : ℕ)
    (pfdrIt rV : ℕ) : NShape :=
  if ¬(IS_ATA rN0 = true) ∧ rV < (2 * numN * pfdrIt) / (numN + pfdrIt) then
    .fullATA
  else N

/-- the reduced-bounds aggregation of `solve_reduced_problem`
(lines 332-422), restricted to the bound buffers the spec's "tightest bound
per component" clause is about.  The `num_ops` gate of line 352 is
reproduced (the per-component loop runs only when at least one optional
array is configured).  Line 410 re-declares `rupp_bnd` as a loop-local
variable initialized to `nullptr`, shadowing the buffer allocated at
line 349; the upper-bound aggregation of lines 411-419 therefore writes
through a null pointer, modelled as `Except.error`.  The correctly
aggregated lower bounds are the running maxima of lines 400-409; `junkLow`
and `junkUpp` are the indeterminate `malloc` contents of the buffers. -/
def reducedBounds (s : CP) (junkLow junkUpp : ℕ → ℚ) :
    Except Unit (Option (ℕ → XQ) × Option (ℕ → ℚ)) :=
  let num_ops : ℕ :=
    (if s.l1_weights.isSome ∨ s.homo_l1_weight ≠ 0 then
      (if s.l1_weights.isSome then s.V else s.rV) else 0) +
    (if s.Yl1.isSome then s.V else 0) +
    (if s.low_bnd.isSome then s.V else 0) +
    (if s.upp_bnd.isSome then s.V else 0)
  if 0 < num_ops ∧ 0 < s.rV then
    if s.upp_bnd.isSome then .error ()
    else
      .ok (s.low_bnd.map (fun lb => fun rv =>
        (List.range' (s.first_vertex rv)
            (s.first_vertex (rv+1) - s.first_vertex rv)).foldl
          (fun acc i =>
            if XQ.blt acc (.fin (lb (s.comp_list i)))
            then .fin (lb (s.comp_list i)) else acc)
          .ninf), none)
  else
    .ok (s.low_bnd.map (fun lb => fun rv => XQ.fin (junkLow rv)),
      s.upp_bnd.map (fun _ => junkUpp))

/-- Concrete instantiation of `univertex_soft_threshold_clamp`: a single
vertex, identity operator (`a = 1`), observation `Y = [5]`, homogeneous l1
weight `2` with null targets (median `0`): `y = 5`, `aa = 1`, `wl1 = 2`, so
the soft-threshold value is `3`; per-vertex bounds `[-1, 1]` clamp it to the
violated upper bound `1`. -/
def CP.uni1 : CP :=
  { CP.default0 with
    Y := some (fun _ => 5),
    N := .diagATA,
    A := none,
    a := 1,
    homo_l1_weight := 2,
    low_bnd := some (fun _ => -1),
    upp_bnd := some (fun _ => 1) }

/-- positions of the members of component `rv` in `comp_list`. -/
def compPos (s : CP) (rv : ℕ) : Finset ℕ :=
  Finset.Ico (s.first_vertex rv) (s.first_vertex (rv+1))

/-- reduced Gram entry for the full premultiplied shape: block sum of the
symmetric operator array over components `ru`, `rv`
(`rAAuv += Au[comp_list[v]]` with `Au = A + V*comp_list[u]`). -/
def rAAfull (s : CP) (ru rv : ℕ) : ℚ :=
  ∑ u in compPos s ru, ∑ v in compPos s rv,
    s.Aval (s.V * s.comp_list u + s.comp_list v)

/-- reduced Gram entry for the diagonal / scaled-identity premultiplied
shape: sum of the diagonal over the component, or the component size for
the identity. -/
def rAAdiag (s : CP) (rv : ℕ) : ℚ :=
  match s.A with
  | some Af => ∑ i in compPos s rv, Af (s.comp_list i)
  | none => ((s.first_vertex (rv+1) - s.first_vertex rv : ℕ) : ℚ)

/-- reduced correlation with the (premultiplied) observations: sum of `Y`
over the component (recall `Y` holds `AᵗY` in the premultiplied shapes). -/
def rAY (s : CP) (rv : ℕ) : ℚ :=
  ∑ u in compPos s rv, s.Yval (s.comp_list u)

/-- quadratic term of `compute_objective` (lines 710-762), per shape:
`½‖R‖²` in the direct case; per-component upper-triangular accumulation
with halved diagonal in the full premultiplied case; per-component diagonal
accumulation otherwise. -/
def objQuad (s : CP) : ℚ :=
  match s.N with
  | .direct n0 => (1/2) * ∑ m in Finset.range n0, s.Rval m * s.Rval m
  | .fullATA =>
    ∑ ru in Finset.range s.rV,
      s.rX ru *
        ((∑ rv in Finset.range (ru+1),
          if rv < ru then rAAfull s ru rv * s.rX rv
          else (1/2) * rAAfull s ru rv * s.rX ru) - rAY s ru)
  | .diagATA =>
    if s.A.isSome ∨ s.a ≠ 0 then
      ∑ rv in Finset.range s.rV,
        s.rX rv * ((1/2) * rAAdiag s rv * s.rX rv - rAY s rv)
    else 0

/-- l1 term of `compute_objective` (lines 766-784): per-vertex weights sum
directly over vertices; a homogeneous weight sums per component over
`comp_list`. -/
def objL1 (s : CP) : ℚ :=
  match s.l1_weights with
  | some w =>
    ∑ v in Finset.range s.V, w v * |s.rX (s.comp_assign v) - s.Yl1val v|
  | none =>
    if s.homo_l1_weight ≠ 0 then
      s.homo_l1_weight *
        ∑ rv in Finset.range s.rV,
          ∑ i in compPos s rv, |s.rX rv - s.Yl1val (s.comp_list i)|
    else 0

/-- `Cp_d1_ql1b::compute_objective` (lines 703-787).  The graph-d1
total-variation term is delegated to the external engine's evaluator
(`compute_graph_d1()`, base class outside the core source) and enters as
the opaque input `d1val`. -/
def compute_objective (s : CP) (d1val : ℚ) : ℚ :=
  objQuad s + d1val + objL1 s

/-- quadratic term as the claim states it: `½‖R‖²` in the direct shape and
`½xᵗ(AᵗA)x − xᵗ(AᵗY)` over the reduced variables in the premultiplied
shapes. -/
def specQuadratic (s : CP) : ℚ :=
  match s.N with
  | .direct n0 => (1/2) * ∑ m in Finset.range n0, s.Rval m * s.Rval m
  | .fullATA =>
    (1/2) * (∑ ru in Finset.range s.rV, ∑ rv in Finset.range s.rV,
        s.rX ru * rAAfull s ru rv * s.rX rv)
      - ∑ ru in Finset.range s.rV, s.rX ru * rAY s ru
  | .diagATA =>
    if s.A.isSome ∨ s.a ≠ 0 then
      (1/2) * (∑ rv in Finset.range s.rV,
          s.rX rv * rAAdiag s rv * s.rX rv)
        - ∑ rv in Finset.range s.rV, s.rX rv * rAY s rv
    else 0

/-- l1 term as the claim states it: `Σ_v weight·|x_v − target_v|` over
every vertex, with `x_v = rX[comp_assign v]`. -/
def specL1 (s : CP) : ℚ :=
  if s.l1_weights.isSome ∨ s.homo_l1_weight ≠ 0 then
    ∑ v in Finset.range s.V, s.l1w v * |s.rX (s.comp_assign v) - s.Yl1val v|
  else 0

/-- the partition invariant maintained by the external engine (§3): the CSR
offsets start at `0`, end at `V`, are monotone, `comp_list` enumerates
vertices (bounded and injective on `[0, V)`), and `comp_assign` is
consistent with the CSR layout. -/
def ValidPartition (s : CP) : Prop :=
  s.first_vertex 0 = 0 ∧
  s.first_vertex s.rV = s.V ∧
  (∀ rv < s.rV, s.first_vertex rv ≤ s.first_vertex (rv+1)) ∧
  (∀ rv < s.rV, ∀ i < s.first_vertex (rv+1), s.first_vertex rv ≤ i →
    s.comp_assign (s.comp_list i) = rv) ∧
  (∀ i < s.V, s.comp_list i < s.V) ∧
  (∀ i < s.V, ∀ j < s.V, s.comp_list i = s.comp_list j → i = j)

/-- capacity state of the (thread-local) flow graph `Gpar`: terminal
capacities per vertex and symmetric edge capacities per edge.  Capacities
persist across the two cuts and across components, as the C++ graph object
does; each cut overwrites the entries of the component it processes. -/
structure FlowCaps where
  term : ℕ → XQ
  ecap : ℕ → ℚ

/-- Modelled from the spec: the min-cut engine (§6 exposes "per-call
restriction to a vertex subset, terminal-capacity set/add, edge-capacity
set, a solve call, and a side-of-cut query per vertex").  A `maxflow` call
followed by `is_sink` queries is a function of the restricted vertex list
and the current capacities, returning the sink side of every vertex. -/
def Oracle : Type := List ℕ → (ℕ → XQ) → (ℕ → ℚ) → ℕ → Bool

/-- positions of the members of component `rv`, in traversal order. -/
def posList (s : CP) (rv : ℕ) : List ℕ :=
  List.range' (s.first_vertex rv)
    (s.first_vertex (rv+1) - s.first_vertex rv)

/-- member vertices of component `rv`, in traversal order
(`comp_list + first_vertex[rv]`). -/
def vertList (s : CP) (rv : ℕ) : List ℕ := (posList s rv).map s.comp_list

/-- CSR edge range of vertex `v`, in traversal order. -/
def edgeList (s : CP) (v : ℕ) : List ℕ :=
  List.range' (s.first_edge v) (s.first_edge (v+1) - s.first_edge v)

/-- the `(vertex, edge)` pairs visited by the nested per-component loops
over members and their CSR edge ranges (the nested loops flattened). -/
def visitPairs (s : CP) (rv : ℕ) : List (ℕ × ℕ) :=
  (vertList s rv).bind (fun v => (edgeList s v).map (fun e => (v, e)))

/-- gradient of the quadratic term (lines 469-503), per operator shape. -/
def gradQuad (s : CP) (u : ℕ) : ℚ :=
  match s.N with
  | .direct n0 => -(∑ m in Finset.range n0, s.Aval (n0 * u + m) * s.Rval m)
  | .fullATA =>
    (∑ rv in Finset.range s.rV,
      if s.rX rv = 0 then 0
      else (∑ i in compPos s rv, s.Aval (s.V * u + s.comp_list i)) * s.rX rv)
      - s.Yval u
  | .diagATA =>
    match s.A with
    | some Af => Af u * s.rX (s.comp_assign u) - s.Yval u
    | none => if s.a ≠ 0 then s.rX (s.comp_assign u) - s.Yval u else 0

/-- differentiable d1 contribution to the gradient (lines 506-517): the
scatter loop adds `±EDGE_WEIGHTS_(e)` at `u` and the opposite amount at
`adj_vertices e`; written per vertex, `u` receives the edge terms of its
own CSR range plus the mirrored terms of edges pointing at it (inside the
mirrored branch `adj_vertices e = u`, so the comparison reads
`rX[comp_assign u']` against `rX[comp_assign u]`). -/
def gradD1 (s : CP) (u : ℕ) : ℚ :=
  (∑ e in Finset.Ico (s.first_edge u) (s.first_edge (u+1)),
    if s.active e then
      (if s.rX (s.comp_assign u) > s.rX (s.comp_assign (s.adj_vertices e))
       then s.ew e else -(s.ew e))
    else 0)
  - ∑ w in Finset.range s.V,
      ∑ e in Finset.Ico (s.first_edge w) (s.first_edge (w+1)),
        if s.active e ∧ s.adj_vertices e = u then
          (if s.rX (s.comp_assign w) > s.rX (s.comp_assign u)
           then s.ew e else -(s.ew e))
        else 0

/-- differentiable l1 contribution to the gradient (lines 519-529),
indexed through `comp_list` as the source loop is. -/
def gradL1 (s : CP) (u : ℕ) : ℚ :=
  if s.l1_weights.isSome ∨ s.homo_l1_weight ≠ 0 then
    ∑ rv in Finset.range s.rV, ∑ i in compPos s rv,
      if s.comp_list i = u then
        (if s.rX rv > s.Yl1val u then s.l1w u
         else if s.rX rv < s.Yl1val u then -(s.l1w u) else 0)
      else 0
  else 0

/-- the full-graph gradient array assembled by `split` (lines 465-529). -/
def grad (s : CP) (u : ℕ) : ℚ := gradQuad s u + gradD1 s u + gradL1 s u

/-- `set_term_capacities(v, grad[v])` over the members of the component
(lines 545-548; identical in the second cut, lines 603-607). -/
def setTermGrad (s : CP) (g : ℕ → ℚ) (rv : ℕ) (t : ℕ → XQ) : ℕ → XQ :=
  (vertList s rv).foldl (fun t v => Function.update t v (.fin (g v))) t

/-- l1 kink contribution to the terminal capacities, `sign = +1` for the
first cut (lines 550-557), `sign = -1` for the second (lines 608-616):
`add_term_capacities(v, ±L1_WEIGHTS_(v))` where the component value sits
exactly at the target. -/
def addTermL1 (s : CP) (sign : ℚ) (rv : ℕ) (t : ℕ → XQ) : ℕ → XQ :=
  if s.l1_weights.isSome ∨ s.homo_l1_weight ≠ 0 then
    (vertList s rv).foldl (fun t v =>
      if s.rX rv = s.Yl1val v then
        Function.update t v (XQ.add (t v) (.fin (sign * s.l1w v)))
      else t) t
  else t

/-- box-constraint contribution, first cut (lines 559-568): terminal
capacity `+∞` at members exactly at their upper bound. -/
def setTermUpp (s : CP) (rv : ℕ) (t : ℕ → XQ) : ℕ → XQ :=
  match s.upp_bnd with
  | some ub => (vertList s rv).foldl (fun t v =>
      if s.rX rv = ub v then Function.update t v .pinf else t) t
  | none =>
    if XQ.blt s.homo_upp_bnd .pinf ∧ XQ.fin (s.rX rv) = s.homo_upp_bnd then
      (vertList s rv).foldl (fun t v => Function.update t v .pinf) t
    else t

/-- box-constraint contribution, second cut (lines 617-627): terminal
capacity `-∞` at members exactly at their lower bound. -/
def setTermLow (s : CP) (rv : ℕ) (t : ℕ → XQ) : ℕ → XQ :=
  match s.low_bnd with
  | some lb => (vertList s rv).foldl (fun t v =>
      if s.rX rv = lb v then Function.update t v .ninf else t) t
  | none =>
    if XQ.blt .ninf s.homo_low_bnd ∧ XQ.fin (s.rX rv) = s.homo_low_bnd then
      (vertList s rv).foldl (fun t v => Function.update t v .ninf) t
    else t

/-- d1 edge capacities (lines 570-577 and 628-637): symmetric capacity
`EDGE_WEIGHTS_(e)` on every currently-inactive edge of the component. -/
def setEdgeCaps (s : CP) (rv : ℕ) (act : ℕ → Bool) (c : ℕ → ℚ) : ℕ → ℚ :=
  (visitPairs s rv).foldl (fun c p =>
    if act p.2 then c else Function.update c p.2 (s.ew p.2)) c

/-- one step of the post-cut activation scan: activate a still-inactive
edge whose endpoints fall on opposite sides of the cut, incrementing the
component's activation count `rv_activation`. -/
def scanStep (s : CP) (sink : ℕ → Bool) (ac : (ℕ → Bool) × ℕ)
    (p : ℕ × ℕ) : (ℕ → Bool) × ℕ :=
  if ac.1 p.2 = false ∧ sink p.1 ≠ sink (s.adj_vertices p.2) then
    (Function.update ac.1 p.2 true, ac.2 + 1)
  else ac

/-- post-cut activation scan (lines 582-590 and 642-650), over the
component's nested member/edge traversal. -/
def activateScan (s : CP) (rv : ℕ) (sink : ℕ → Bool)
    (ac : (ℕ → Bool) × ℕ) : (ℕ → Bool) × ℕ :=
  (visitPairs s rv).foldl (scanStep s sink) ac

/-- the optimization guard of line 595: no l1 term and no box constraint
configured. -/
def noNonDiff (s : CP) : Bool :=
  s.l1_weights.isNone && decide (s.homo_l1_weight = 0) &&
  s.low_bnd.isNone && s.upp_bnd.isNone &&
  decide (s.homo_low_bnd = XQ.ninf) && decide (s.homo_upp_bnd = XQ.pinf)

/-- mutable state threaded through the per-component split loop: activity
flags, saturation flags, the per-component activation counts (mirroring
the loop-local `rv_activation` recorded for each processed component),
flow-graph capacities, and the total activation count. -/
structure SplitSt where
  active : ℕ → Bool
  saturated : ℕ → Bool
  percomp : ℕ → ℕ
  caps : FlowCaps
  total : ℕ

/-- per-component body of `Cp_d1_ql1b::split` (lines 538-655): skip
saturated components; first cut (direction `+1`); when no
nondifferentiable part besides the total variation exists, record
saturation and continue (lines 592-600); otherwise second cut (direction
`-1`) and record saturation from the accumulated activation count
(line 652). -/
def splitComp (s : CP) (oracle : Oracle) (g : ℕ → ℚ) (st : SplitSt)
    (rv : ℕ) : SplitSt :=
  if st.saturated rv then st else
  let t1 := setTermUpp s rv
    (addTermL1 s 1 rv (setTermGrad s g rv st.caps.term))
  let c1 := setEdgeCaps s rv st.active st.caps.ecap
  let sink1 := oracle (vertList s rv) t1 c1
  let a1 := activateScan s rv sink1 (st.active, 0)
  if noNonDiff s then
    { active := a1.1,
      saturated := Function.update st.saturated rv (decide (a1.2 = 0)),
      percomp := Function.update st.percomp rv a1.2,
      caps := ⟨t1, c1⟩,
      total := st.total + a1.2 }
  else
    let t2 := setTermLow s rv (addTermL1 s (-1) rv (setTermGrad s g rv t1))
    let c2 := setEdgeCaps s rv a1.1 c1
    let sink2 := oracle (vertList s rv) t2 c2
    let a2 := activateScan s rv sink2 (a1.1, a1.2)
    { active := a2.1,
      saturated := Function.update st.saturated rv (decide (a2.2 = 0)),
      percomp := Function.update st.percomp rv a2.2,
      caps := ⟨t2, c2⟩,
      total := st.total + a2.2 }

/-- `Cp_d1_ql1b::split` (lines 462-663): assemble the gradient, then run
the per-component min-cut refinement over all components.  `caps0` is the
initial capacity state of the freshly cloned flow graph. -/
def split (s : CP) (oracle : Oracle) (caps0 : FlowCaps) : SplitSt :=
  (List.range s.rV).foldl (splitComp s oracle (grad s))
    ⟨s.active, s.saturated, fun _ => 0, caps0, 0⟩

/-- per-component split body as the spec's words describe it without the
one-cut optimization: both direction cuts are always computed (§4.3
steps 1 and 2). -/
def splitCompTwoCut (s : CP) (oracle : Oracle) (g : ℕ → ℚ) (st : SplitSt)
    (rv : ℕ) : SplitSt :=
  if st.saturated rv then st else
  let t1 := setTermUpp s rv
    (addTermL1 s 1 rv (setTermGrad s g rv st.caps.term))
  let c1 := setEdgeCaps s rv st.active st.caps.ecap
  let sink1 := oracle (vertList s rv) t1 c1
  let a1 := activateScan s rv sink1 (st.active, 0)
  let t2 := setTermLow s rv (addTermL1 s (-1) rv (setTermGrad s g rv t1))
  let c2 := setEdgeCaps s rv a1.1 c1
  let sink2 := oracle (vertList s rv) t2 c2
  let a2 := activateScan s rv sink2 (a1.1, a1.2)
  { active := a2.1,
    saturated := Function.update st.saturated rv (decide (a2.2 = 0)),
    percomp := Function.update st.percomp rv a2.2,
    caps := ⟨t2, c2⟩,
    total := st.total + a2.2 }

/-- the split step with both cuts always computed, for comparison with the
optimized `split`. -/
def splitTwoCut (s : CP) (oracle : Oracle) (caps0 : FlowCaps) : SplitSt :=
  (List.range s.rV).foldl (splitCompTwoCut s oracle (grad s))
    ⟨s.active, s.saturated, fun _ => 0, caps0, 0⟩

/-- commit the outcome of a `split` call back into the solver state (the
C++ mutates the engine-owned activity and saturation flags in place). -/
def applySplit (s : CP) (oracle : Oracle) (caps0 : FlowCaps) : CP :=
  { s with
    active := (split s oracle caps0).active,
    saturated := (split s oracle caps0).saturated }

/-- repeated `split` calls on a fixed partition, one oracle/initial
capacity pair per call. -/
def splitIter (s : CP) : List (Oracle × FlowCaps) → CP
  | [] => s
  | p :: ps => splitIter (applySplit s p.1 p.2) ps

/-- outcome of `compute_evolution`: accumulated squared difference and
squared amplitude (the C++ then returns
`sqrt(dif) / amp` with `amp = sqrt(ampSq)` when `amp > eps`, else
`sqrt(dif) / eps`), the `saturation` out-parameter counting components
still saturated, and the updated saturation flags. -/
structure EvoResult where
  difSq : ℚ
  ampSq : ℚ
  satCount : ℕ
  saturated : ℕ → Bool

/-- loop body of `Cp_d1_ql1b::compute_evolution` (lines 674-693): for a
saturated component, compare the single representative member (position
`first_vertex rv` of `comp_list`, read through the previous round's
assignment) against tolerance `|rX|·dif_tol`, revoking saturation when
exceeded, else counting the component saturated; accumulate squared
differences and amplitudes when `compute_dif` is requested (per-vertex for
non-saturated components). -/
def evoStep (s : CP) (compute_dif : Bool) (r : EvoResult) (rv : ℕ) :
    EvoResult :=
  let rXv := s.rX rv
  if r.saturated rv then
    let lrXv := s.last_rX
      (s.tmp_comp_assign (s.comp_list (s.first_vertex rv)))
    let rv_dif := |rXv - lrXv|
    let r1 :=
      if rv_dif > |s.rX rv| * s.dif_tol then
        { r with saturated := Function.update r.saturated rv false }
      else
        { r with satCount := r.satCount + 1 }
    if compute_dif then
      { r1 with
        difSq := r1.difSq + rv_dif * rv_dif *
          ((s.first_vertex (rv+1) - s.first_vertex rv : ℕ) : ℚ),
        ampSq := r1.ampSq + rXv * rXv *
          ((s.first_vertex (rv+1) - s.first_vertex rv : ℕ) : ℚ) }
    else r1
  else if compute_dif then
    { r with
      difSq := r.difSq + ∑ i in compPos s rv,
        (rXv - s.last_rX (s.tmp_comp_assign (s.comp_list i))) *
          (rXv - s.last_rX (s.tmp_comp_assign (s.comp_list i))),
      ampSq := r.ampSq + rXv * rXv *
        ((s.first_vertex (rv+1) - s.first_vertex rv : ℕ) : ℚ) }
  else r

/-- `Cp_d1_ql1b::compute_evolution` (lines 665-701): run `evoStep` over
all components, starting from zero accumulators, zero saturation count and
the current saturation flags. -/
def compute_evolution (s : CP) (compute_dif : Bool) : EvoResult :=
  (List.range s.rV).foldl (evoStep s compute_dif) ⟨0, 0, 0, s.saturated⟩

/-- Concrete instantiation of `compute_objective_decomposition`: two
vertices in one component, full premultiplied operator
`AᵗA = [[1, 1], [1, 1]]` (symmetric), `AᵗY = [3, 1]`, `rX = [2]`,
homogeneous l1 weight `1`, zero targets. -/
def CP.obj1 : CP :=
  { CP.default0 with
    V := 2,
    N := .fullATA,
    A := some (fun _ => 1),
    Y := some (fun n => if n = 0 then 3 else 1),
    rX := fun _ => 2,
    first_vertex := fun i => min (2*i) 2,
    homo_l1_weight := 1 }

/-- Concrete instantiation of `split_active_monotone`: a two-vertex graph
with one active edge stays active through two `split` calls. -/
def CP.spl1 : CP :=
  { CP.default0 with
    V := 2,
    E := 1,
    first_edge := fun v => min v 1,
    adj_vertices := fun _ => 1,
    active := fun e => e = 0,
    first_vertex := fun i => min (2*i) 2 }

/-- C8: `set_l1` terminates the process exactly when no per-vertex weight
array is given and the homogeneous l1 weight is negative, and `set_bounds`
terminates exactly when no per-vertex bound array is given and the
homogeneous lower bound strictly exceeds the homogeneous upper bound; in
both cases the error is raised before any field is assigned (the embedding
returns `error` without touching the state), and no other input errors. -/
theorem set_l1_set_bounds_exit_iff (s : CP) (w : Option (ℕ → ℚ)) (hw : ℚ)
    (t lb ub : Option (ℕ → ℚ)) (hl hu : XQ) :
    (set_l1 s w hw t = .error () ↔ w = none ∧ hw < 0) ∧
    (set_bounds s lb hl ub hu = .error () ↔
      lb = none ∧ ub = none ∧ XQ.blt hu hl = true) := by
  constructor
  · unfold set_l1
    by_cases h : w.isNone ∧ hw < 0
    · simp [h, Option.isNone_iff_eq_none.mp h.1, h.2]
    · rw [if_neg h]
      simp only [Option.isNone_iff_eq_none] at h
      simp only [not_and] at h
      constructor
      · intro hc; exact absurd hc (by simp)
      · intro ⟨h1, h2⟩; exact absurd h2 (h h1)
  · unfold set_bounds
    by_cases h : lb.isNone ∧ ub.isNone ∧ XQ.blt hu hl
    · simp [h, Option.isNone_iff_eq_none.mp h.1,
        Option.isNone_iff_eq_none.mp h.2.1, h.2.2]
    · rw [if_neg h]
      simp only [Option.isNone_iff_eq_none] at h
      constructor
      · intro hc; exact absurd hc (by simp)
      · intro ⟨h1, h2, h3⟩; exact absurd ⟨h1, h2, h3⟩ h

/-- C10: after `set_quadratic`, the owned residual buffer is the freshly
allocated length-`N` buffer exactly when the stored shape is the direct
matricial one, and null otherwise; and a null operator array with zero
scalar coefficient stores the no-quadratic `DIAG_ATA` shape regardless of
the `N` argument, hence keeps no residual buffer. -/
theorem set_quadratic_residual (s : CP) (Y : Option (ℕ → ℚ)) (N : NShape)
    (A : Option (ℕ → ℚ)) (a : ℚ) (fresh : ℕ → ℚ) :
    ((set_quadratic s Y N A a fresh).R =
      if IS_ATA (set_quadratic s Y N A a fresh).N then none else some fresh) ∧
    (∀ n, (set_quadratic s Y N A a fresh).N = .direct n →
      (set_quadratic s Y N A a fresh).R = some fresh ∧
      (set_quadratic s Y N A a fresh).Rlen = n) ∧
    (IS_ATA (set_quadratic s Y N A a fresh).N = true →
      (set_quadratic s Y N A a fresh).R = none) ∧
    (A = none → a = 0 → (set_quadratic s Y N A a fresh).N = .diagATA) := by
  refine ⟨rfl, ?_, ?_, ?_⟩
  · intro n hn
    by_cases h : A.isNone ∧ a = 0
    · simp only [set_quadratic, if_pos h] at hn
      exact absurd hn (by simp)
    · simp only [set_quadratic, if_neg h] at hn ⊢
      subst hn
      exact ⟨by simp [IS_ATA], rfl⟩
  · intro hata
    simp only [set_quadratic] at hata ⊢
    simp [hata]
  · intro h1 h2
    have : A.isNone ∧ a = 0 := ⟨Option.isNone_iff_eq_none.mpr h1, h2⟩
    simp only [set_quadratic, if_pos this]

theorem XQ.blt_trans {x y z : XQ} (hxy : XQ.blt x y = true)
    (hyz : XQ.blt y z = true) : XQ.blt x z = true := by
  cases x <;> cases y <;> cases z <;> simp_all [XQ.blt]
  exact lt_trans hxy hyz

/-- C3 (code bug, line 224): the premultiplication decision tests the
uninitialized `rN` instead of the main problem's `N`.  With a direct main
problem of `N = 1000` observations, `rV = 3` components and iteration cap
`pfdr_it = 10⁴`, the claimed condition `rV < 2·N·it/(N+it)` holds
(`3 < 1818`), so the claim requires the premultiplied `rV×rV` form; yet
when the indeterminate initial value of `rN` satisfies `IS_ATA` the code
keeps the direct `N×rV` form, while for other indeterminate values it
premultiplies — the outcome depends on an uninitialized read, contradicting
the adjacent comment (lines 215-223) which states the rule of thumb in
terms of `N`. -/
theorem reducedShape_reads_uninitialized :
    (3 < (2 * 1000 * 10000) / (1000 + 10000)) ∧
    reducedShapeDecision .diagATA (.direct 1000) 1000 10000 3 =
      .direct 1000 ∧
    reducedShapeDecision (.direct 7) (.direct 1000) 1000 10000 3 =
      .fullATA := by
  refine ⟨by norm_num, ?_, ?_⟩ <;>
    simp [reducedShapeDecision, IS_ATA]

/-- C2 (code bug, line 410): with a per-vertex upper-bound array configured,
`solve_reduced_problem` crashes before producing any reduced upper bound —
the loop-local `real_t *rupp_bnd = nullptr;` shadows the allocated buffer
and the aggregation writes through the null pointer — so the delegated
solver never receives the claimed per-component minimum.  Concrete failing
input: one vertex, one component, `upp_bnd = [1]`. -/
theorem reducedBounds_null_deref :
    reducedBounds
      { CP.default0 with upp_bnd := some (fun _ => 1) }
      (fun _ => 0) (fun _ => 0) = .error () := by
  simp [reducedBounds, CP.default0]

/-- running maximum over `List.range n` starting at `-∞`: for nonempty
ranges it returns the greatest array value. -/
theorem range_foldl_max (lb : ℕ → ℚ) (n : ℕ) (hn : 0 < n) :
    ∃ m : ℚ,
      (List.range n).foldl
        (fun acc v => if XQ.blt acc (.fin (lb v)) then .fin (lb v) else acc)
        .ninf = .fin m ∧
      (∀ v < n, lb v ≤ m) ∧ (∃ v < n, lb v = m) := by
  induction n with
  | zero => omega
  | succ k ih =>
    rw [List.range_succ, List.foldl_append]
    cases Nat.eq_zero_or_pos k with
    | inl h0 =>
      subst h0
      refine ⟨lb 0, ?_, ?_, 0, by omega, rfl⟩
      · simp [XQ.blt]
      · intro v hv
        interval_cases v
        exact le_refl _
    | inr hk =>
      obtain ⟨m, hm, hmax, v0, hv0, hv0m⟩ := ih hk
      rw [hm]
      simp only [List.foldl_cons, List.foldl_nil]
      by_cases hlt : XQ.blt (.fin m) (.fin (lb k)) = true
      · simp only [hlt, if_true]
        simp only [XQ.blt, decide_eq_true_eq] at hlt
        refine ⟨lb k, rfl, ?_, k, by omega, rfl⟩
        intro v hv
        rcases Nat.lt_succ_iff_lt_or_eq.mp hv with h | h
        · exact le_of_lt (lt_of_le_of_lt (hmax v h) hlt)
        · subst h; exact le_refl _
      · simp only [hlt, if_false]
        simp only [XQ.blt, decide_eq_true_eq, not_lt] at hlt
        refine ⟨m, rfl, ?_, v0, by omega, hv0m⟩
        intro v hv
        rcases Nat.lt_succ_iff_lt_or_eq.mp hv with h | h
        · exact hmax v h
        · subst h; exact hlt

/-- running minimum over `List.range n` starting at `+∞`: for nonempty
ranges it returns the least array value. -/
theorem range_foldl_min (ub : ℕ → ℚ) (n : ℕ) (hn : 0 < n) :
    ∃ m : ℚ,
      (List.range n).foldl
        (fun acc v => if XQ.blt (.fin (ub v)) acc then .fin (ub v) else acc)
        .pinf = .fin m ∧
      (∀ v < n, m ≤ ub v) ∧ (∃ v < n, ub v = m) := by
  induction n with
  | zero => omega
  | succ k ih =>
    rw [List.range_succ, List.foldl_append]
    cases Nat.eq_zero_or_pos k with
    | inl h0 =>
      subst h0
      refine ⟨ub 0, ?_, ?_, 0, by omega, rfl⟩
      · simp [XQ.blt]
      · intro v hv
        interval_cases v
        exact le_refl _
    | inr hk =>
      obtain ⟨m, hm, hmin, v0, hv0, hv0m⟩ := ih hk
      rw [hm]
      simp only [List.foldl_cons, List.foldl_nil]
      by_cases hlt : XQ.blt (.fin (ub k)) (.fin m) = true
      · simp only [hlt, if_true]
        simp only [XQ.blt, decide_eq_true_eq] at hlt
        refine ⟨ub k, rfl, ?_, k, by omega, rfl⟩
        intro v hv
        rcases Nat.lt_succ_iff_lt_or_eq.mp hv with h | h
        · exact le_of_lt (lt_of_lt_of_le hlt (hmin v h))
        · subst h; exact le_refl _
      · simp only [hlt, if_false]
        simp only [XQ.blt, decide_eq_true_eq, not_lt] at hlt
        refine ⟨m, rfl, ?_, v0, by omega, hv0m⟩
        intro v hv
        rcases Nat.lt_succ_iff_lt_or_eq.mp hv with h | h
        · exact hmin v h
        · subst h; exact hlt

/-- C1: `solve_univertex_problem` returns the soft-threshold closed form —
`(y−wl1)/aa` when `y−wl1 > aa·median`, `(y+wl1)/aa` when `y+wl1 < aa·median`,
and the (weighted) median otherwise, with `y = ⟨A·1|Y⟩`, `aa = ‖A·1‖²` and
`wl1` the total l1 weight as aggregated per operator shape — and clamps it
into `[max of per-vertex lower bounds, min of per-vertex upper bounds]`
(conjuncts 4-5 characterize the aggregated bounds as that max/min); when the
unconstrained optimum violates a bound and the interval is nonempty, the
returned value is exactly the violated bound (conjuncts 7-8).  `aa ≠ 0` is
the spec's well-posedness precondition (§4.1). -/
theorem univertex_soft_threshold_clamp (s : CP) (wmed med xstar : ℚ)
    (haa : uni_aa s ≠ 0)
    (hx : xstar = uni_soft (uni_y s) (uni_aa s) (uni_wl1 s)
      (uni_yl1 s wmed med)) :
    (uni_y s - uni_wl1 s > uni_aa s * uni_yl1 s wmed med →
      xstar = (uni_y s - uni_wl1 s) / uni_aa s) ∧
    (¬(uni_y s - uni_wl1 s > uni_aa s * uni_yl1 s wmed med) →
      uni_y s + uni_wl1 s < uni_aa s * uni_yl1 s wmed med →
      xstar = (uni_y s + uni_wl1 s) / uni_aa s) ∧
    (¬(uni_y s - uni_wl1 s > uni_aa s * uni_yl1 s wmed med) →
      ¬(uni_y s + uni_wl1 s < uni_aa s * uni_yl1 s wmed med) →
      xstar = uni_yl1 s wmed med) ∧
    (∀ lb, s.low_bnd = some lb → 0 < s.V →
      ∃ m, uni_low s = .fin m ∧ (∀ v < s.V, lb v ≤ m) ∧
        ∃ v < s.V, lb v = m) ∧
    (∀ ub, s.upp_bnd = some ub → 0 < s.V →
      ∃ m, uni_upp s = .fin m ∧ (∀ v < s.V, m ≤ ub v) ∧
        ∃ v < s.V, ub v = m) ∧
    (XQ.blt (.fin xstar) (uni_low s) = false →
      XQ.blt (uni_upp s) (.fin xstar) = false →
      univertex s wmed med = .fin xstar) ∧
    (XQ.blt (.fin xstar) (uni_low s) = true →
      XQ.blt (uni_upp s) (uni_low s) = false →
      univertex s wmed med = uni_low s) ∧
    (XQ.blt (uni_upp s) (.fin xstar) = true →
      XQ.blt (uni_upp s) (uni_low s) = false →
      univertex s wmed med = uni_upp s) := by
  refine ⟨?_, ?_, ?_, ?_, ?_, ?_, ?_, ?_⟩
  · intro h1; rw [hx, uni_soft, if_pos h1]
  · intro h1 h2; rw [hx, uni_soft, if_neg h1, if_pos h2]
  · intro h1 h2; rw [hx, uni_soft, if_neg h1, if_neg h2]
  · intro lb hlb hV
    simp only [uni_low, hlb]
    exact range_foldl_max lb s.V hV
  · intro ub hub hV
    simp only [uni_upp, hub]
    exact range_foldl_min ub s.V hV
  · intro hlo hup
    rw [univertex, ← hx]
    simp only [hlo, Bool.false_eq_true, if_false, hup]
  · intro hlo hle
    rw [univertex, ← hx]
    simp only [hlo, if_true, hle, Bool.false_eq_true, if_false]
  · intro hup hle
    rw [univertex, ← hx]
    by_cases hlo : XQ.blt (.fin xstar) (uni_low s) = true
    · exact absurd (XQ.blt_trans hup hlo) (by rw [hle]; simp)
    · simp only [hlo, Bool.false_eq_true, if_false, hup, if_true]

theorem univertex_soft_threshold_clamp_witness :
    uni_aa CP.uni1 ≠ 0 ∧ univertex CP.uni1 0 0 = .fin 1 := by
  have haa : uni_aa CP.uni1 = 1 := by
    norm_num [uni_aa, CP.uni1, CP.default0]
  have hx : uni_soft (uni_y CP.uni1) (uni_aa CP.uni1) (uni_wl1 CP.uni1)
      (uni_yl1 CP.uni1 0 0) = 3 := by
    norm_num [uni_soft, uni_y, uni_aa, uni_wl1, uni_yl1, CP.uni1, CP.default0,
      CP.Yval, Finset.sum_range_one]
  have hlow : uni_low CP.uni1 = .fin (-1) := by
    norm_num [uni_low, CP.uni1, CP.default0, List.range_succ, XQ.blt]
  have hupp : uni_upp CP.uni1 = .fin 1 := by
    norm_num [uni_upp, CP.uni1, CP.default0, List.range_succ, XQ.blt]
  have h := univertex_soft_threshold_clamp CP.uni1 0 0 3 (by rw [haa]; norm_num)
    hx.symm
  refine ⟨by rw [haa]; norm_num, ?_⟩
  rw [← hupp]
  refine h.2.2.2.2.2.2.2 ?_ ?_
  · rw [hupp]; simp [XQ.blt]
  · rw [hupp, hlow]; simp [XQ.blt]

theorem set_quadratic_residual_witness :
    (set_quadratic CP.default0 none (.direct 5) none 0 (fun _ => 0)).N =
      .diagATA ∧
    (set_quadratic CP.default0 none (.direct 5) none 0 (fun _ => 0)).R =
      none := by
  have h := set_quadratic_residual CP.default0 none (.direct 5) none 0
    (fun _ => 0)
  have hN := h.2.2.2 rfl rfl
  exact ⟨hN, h.2.2.1 (by rw [hN]; rfl)⟩

theorem fv_chain (fv : ℕ → ℕ) (k : ℕ)
    (hmono : ∀ r < k, fv r ≤ fv (r+1)) :
    ∀ p q, p ≤ q → q ≤ k → fv p ≤ fv q := by
  intro p q hpq hqk
  induction q with
  | zero => exact Nat.le_antisymm hpq (Nat.zero_le p) ▸ le_refl _
  | succ m ih =>
    rcases Nat.lt_succ_iff_lt_or_eq.mp (Nat.lt_succ_of_le hpq) with h | h
    · exact le_trans
        (ih (Nat.lt_succ_iff.mp h) (le_trans (Nat.le_succ m) hqk))
        (hmono m (Nat.lt_of_lt_of_le (Nat.lt_succ_self m) hqk))
    · exact h ▸ le_refl _

/-- triangular accumulation with halved diagonal equals half the full
symmetric quadratic form. -/
theorem triangle_sum (k : ℕ) (M : ℕ → ℕ → ℚ) (x : ℕ → ℚ)
    (hsymm : ∀ u < k, ∀ v < k, M u v = M v u) :
    ∑ u in Finset.range k,
      x u * (∑ v in Finset.range (u+1),
        if v < u then M u v * x v else (1/2) * M u v * x u) =
    (1/2) * ∑ u in Finset.range k, ∑ v in Finset.range k,
      x u * M u v * x v := by
  induction k with
  | zero => simp
  | succ n ih =>
    have hs : ∀ u < n, ∀ v < n, M u v = M v u := fun u hu v hv =>
      hsymm u (Nat.lt_succ_of_lt hu) v (Nat.lt_succ_of_lt hv)
    have e1 : ∑ u in Finset.range (n+1), ∑ v in Finset.range (n+1),
          x u * M u v * x v
        = (∑ u in Finset.range n, ∑ v in Finset.range n, x u * M u v * x v)
          + (∑ u in Finset.range n, x u * M u n * x n)
          + ((∑ v in Finset.range n, x n * M n v * x v)
            + x n * M n n * x n) := by
      rw [Finset.sum_range_succ]
      rw [Finset.sum_congr rfl
        (fun u _ => Finset.sum_range_succ (fun v => x u * M u v * x v) n)]
      rw [Finset.sum_add_distrib,
        Finset.sum_range_succ (fun v => x n * M n v * x v) n]
    have e2 : ∑ u in Finset.range n, x u * M u n * x n
        = ∑ v in Finset.range n, x n * M n v * x v := by
      refine Finset.sum_congr rfl (fun u hu => ?_)
      rw [hsymm u (Nat.lt_succ_of_lt (Finset.mem_range.mp hu)) n
        (Nat.lt_succ_self n)]
      ring
    have e3 : ∑ v in Finset.range (n+1),
          (if v < n then M n v * x v else (1/2) * M n v * x n)
        = (∑ v in Finset.range n, M n v * x v) + (1/2) * M n n * x n := by
      rw [Finset.sum_range_succ, if_neg (lt_irrefl n)]
      congr 1
      exact Finset.sum_congr rfl
        (fun v hv => if_pos (Finset.mem_range.mp hv))
    have e4 : x n * (∑ v in Finset.range n, M n v * x v)
        = ∑ v in Finset.range n, x n * M n v * x v := by
      rw [Finset.mul_sum]
      exact Finset.sum_congr rfl (fun v _ => by ring)
    rw [Finset.sum_range_succ, ih hs, e3, e1, e2, mul_add, e4]
    ring

/-- consecutive CSR blocks of a monotone offset array flatten to one
interval sum. -/
theorem sum_blocks (fv : ℕ → ℕ) (f : ℕ → ℚ) (k : ℕ)
    (hmono : ∀ r < k, fv r ≤ fv (r+1)) :
    ∑ r in Finset.range k, ∑ i in Finset.Ico (fv r) (fv (r+1)), f i =
    ∑ i in Finset.Ico (fv 0) (fv k), f i := by
  induction k with
  | zero => simp
  | succ n ih =>
    have h1 : ∀ r < n, fv r ≤ fv (r+1) := fun r hr =>
      hmono r (Nat.lt_succ_of_lt hr)
    rw [Finset.sum_range_succ, ih h1,
      Finset.sum_Ico_consecutive f
        (fv_chain fv (n+1) hmono 0 n (Nat.zero_le n) (Nat.le_succ n))
        (hmono n (Nat.lt_succ_self n))]

/-- summing through the `comp_list` enumeration of the vertices equals
summing over the vertices. -/
theorem sum_comp_list (s : CP) (g : ℕ → ℚ)
    (hb : ∀ i < s.V, s.comp_list i < s.V)
    (hinj : ∀ i < s.V, ∀ j < s.V, s.comp_list i = s.comp_list j → i = j) :
    ∑ i in Finset.range s.V, g (s.comp_list i) =
    ∑ v in Finset.range s.V, g v := by
  have hinj' : ∀ i ∈ Finset.range s.V, ∀ j ∈ Finset.range s.V,
      s.comp_list i = s.comp_list j → i = j := fun i hi j hj =>
    hinj i (Finset.mem_range.mp hi) j (Finset.mem_range.mp hj)
  have himg : (Finset.range s.V).image s.comp_list = Finset.range s.V := by
    apply Finset.eq_of_subset_of_card_le
    · intro x hx
      obtain ⟨i, hi, rfl⟩ := Finset.mem_image.mp hx
      exact Finset.mem_range.mpr (hb i (Finset.mem_range.mp hi))
    · rw [Finset.card_image_of_injOn hinj', Finset.card_range]
  have h := Finset.sum_image (f := g) hinj'
  rw [himg] at h
  exact h.symm

/-- C7: `compute_objective` returns the sum of (a) the quadratic term —
`½‖R‖²` in the direct shape, `½xᵗ(AᵗA)x − xᵗ(AᵗY)` over the reduced
variables in the premultiplied shapes, where the code's per-component
upper-triangular accumulation with halved diagonal is proved equal to the
full symmetric quadratic form — (b) the delegated graph-d1 term `d1val`,
and (c) the l1 term `Σ_v weight·|x_v − target_v|` over every vertex.
Hypotheses: the premultiplied operator array is symmetric, and the
partition satisfies the engine's invariant. -/
theorem compute_objective_decomposition (s : CP) (d1val : ℚ)
    (hsym : ∀ u < s.V, ∀ v < s.V,
      s.Aval (s.V * u + v) = s.Aval (s.V * v + u))
    (hpart : ValidPartition s) :
    compute_objective s d1val = specQuadratic s + d1val + specL1 s := by
  obtain ⟨h0, hV, hmono, hassign, hbV, hinj⟩ := hpart
  have hclV : ∀ rv < s.rV, ∀ i ∈ compPos s rv, s.comp_list i < s.V := by
    intro rv hrv i hi
    obtain ⟨hi1, hi2⟩ := Finset.mem_Ico.mp hi
    apply hbV
    calc i < s.first_vertex (rv+1) := hi2
      _ ≤ s.first_vertex s.rV := fv_chain s.first_vertex s.rV hmono
        (rv+1) s.rV hrv (le_refl _)
      _ = s.V := hV
  have hq : objQuad s = specQuadratic s := by
    cases hN : s.N with
    | direct n0 => simp only [objQuad, specQuadratic, hN]
    | diagATA =>
      simp only [objQuad, specQuadratic, hN]
      by_cases hAa : s.A.isSome ∨ s.a ≠ 0
      · rw [if_pos hAa, if_pos hAa, Finset.mul_sum, ← Finset.sum_sub_distrib]
        exact Finset.sum_congr rfl (fun rv _ => by ring)
      · rw [if_neg hAa, if_neg hAa]
    | fullATA =>
      simp only [objQuad, specQuadratic, hN]
      have hMsym : ∀ ru < s.rV, ∀ rv < s.rV,
          rAAfull s ru rv = rAAfull s rv ru := by
        intro ru hru rv hrv
        unfold rAAfull
        rw [Finset.sum_comm]
        refine Finset.sum_congr rfl (fun v hv => ?_)
        refine Finset.sum_congr rfl (fun u hu => ?_)
        exact hsym (s.comp_list u) (hclV ru hru u hu)
          (s.comp_list v) (hclV rv hrv v hv)
      have hsplit : ∑ ru in Finset.range s.rV,
            s.rX ru *
              ((∑ rv in Finset.range (ru+1),
                if rv < ru then rAAfull s ru rv * s.rX rv
                else (1/2) * rAAfull s ru rv * s.rX ru) - rAY s ru)
          = (∑ ru in Finset.range s.rV,
              s.rX ru * (∑ rv in Finset.range (ru+1),
                if rv < ru then rAAfull s ru rv * s.rX rv
                else (1/2) * rAAfull s ru rv * s.rX ru))
            - ∑ ru in Finset.range s.rV, s.rX ru * rAY s ru := by
        rw [← Finset.sum_sub_distrib]
        exact Finset.sum_congr rfl (fun ru _ => by ring)
      rw [hsplit, triangle_sum s.rV (rAAfull s) s.rX hMsym]
  have hl : objL1 s = specL1 s := by
    cases hlw : s.l1_weights with
    | some w =>
      simp only [objL1, specL1, hlw]
      simp [CP.l1w, hlw]
    | none =>
      simp only [objL1, specL1, hlw]
      by_cases hh : s.homo_l1_weight ≠ 0
      · rw [if_pos hh, if_pos (Or.inr hh)]
        have step1 : ∑ rv in Finset.range s.rV,
              ∑ i in compPos s rv, |s.rX rv - s.Yl1val (s.comp_list i)|
            = ∑ rv in Finset.range s.rV, ∑ i in compPos s rv,
              |s.rX (s.comp_assign (s.comp_list i)) -
                s.Yl1val (s.comp_list i)| := by
          refine Finset.sum_congr rfl (fun rv hrv => ?_)
          refine Finset.sum_congr rfl (fun i hi => ?_)
          obtain ⟨hi1, hi2⟩ := Finset.mem_Ico.mp hi
          rw [hassign rv (Finset.mem_range.mp hrv) i hi2 hi1]
        have step2 : ∑ rv in Finset.range s.rV, ∑ i in compPos s rv,
              |s.rX (s.comp_assign (s.comp_list i)) -
                s.Yl1val (s.comp_list i)|
            = ∑ i in Finset.range s.V,
              |s.rX (s.comp_assign (s.comp_list i)) -
                s.Yl1val (s.comp_list i)| := by
          simp only [compPos]
          rw [sum_blocks s.first_vertex _ s.rV hmono, h0, hV,
            ← Finset.range_eq_Ico]
        have step3 : ∑ i in Finset.range s.V,
              |s.rX (s.comp_assign (s.comp_list i)) -
                s.Yl1val (s.comp_list i)|
            = ∑ v in Finset.range s.V,
              |s.rX (s.comp_assign v) - s.Yl1val v| := by
          exact sum_comp_list s
            (fun v => |s.rX (s.comp_assign v) - s.Yl1val v|) hbV hinj
        rw [step1, step2, step3, Finset.mul_sum]
        refine Finset.sum_congr rfl (fun v _ => ?_)
        simp [CP.l1w, hlw, mul_comm]
      · rw [if_neg hh, if_neg (by simp [not_not.mp hh])]
  rw [compute_objective, hq, hl]

theorem compute_objective_decomposition_witness :
    ValidPartition CP.obj1 ∧
    compute_objective CP.obj1 5 =
      specQuadratic CP.obj1 + 5 + specL1 CP.obj1 := by
  refine ⟨?_, ?_⟩
  · refine ⟨rfl, rfl, ?_, ?_, ?_, ?_⟩ <;> decide
  · exact compute_objective_decomposition CP.obj1 5 (by decide)
      ⟨rfl, rfl, by decide, by decide, by decide, by decide⟩

theorem foldl_invariant {α β : Type} (f : α → β → α) (P : α → Prop)
    (l : List β) (h : ∀ a b, P a → P (f a b)) :
    ∀ a, P a → P (l.foldl f a) := by
  induction l with
  | nil => intro a ha; exact ha
  | cons b bs ih => intro a ha; exact ih (f a b) (h a b ha)

theorem scanStep_mono (s : CP) (sink : ℕ → Bool) (ac : (ℕ → Bool) × ℕ)
    (p : ℕ × ℕ) (e : ℕ) (h : ac.1 e = true) :
    (scanStep s sink ac p).1 e = true := by
  unfold scanStep
  split
  · by_cases he : e = p.2
    · subst he; simp
    · simpa [Function.update_noteq he] using h
  · exact h

theorem scan_foldl_mono (s : CP) (sink : ℕ → Bool) (l : List (ℕ × ℕ)) :
    ∀ (ac : (ℕ → Bool) × ℕ) (e : ℕ), ac.1 e = true →
      ((l.foldl (scanStep s sink) ac).1 e = true) := by
  induction l with
  | nil => intro ac e h; exact h
  | cons p ps ih => intro ac e h; exact ih _ e (scanStep_mono s sink ac p e h)

theorem scan_foldl_complete (s : CP) (sink : ℕ → Bool) (l : List (ℕ × ℕ)) :
    ∀ (ac : (ℕ → Bool) × ℕ) (p : ℕ × ℕ), p ∈ l →
      sink p.1 ≠ sink (s.adj_vertices p.2) →
      ((l.foldl (scanStep s sink) ac).1 p.2 = true) := by
  induction l with
  | nil => intro ac p hp _; exact absurd hp (List.not_mem_nil p)
  | cons q qs ih =>
    intro ac p hp hdiff
    rcases List.mem_cons.mp hp with rfl | hmem
    · rw [List.foldl_cons]
      apply scan_foldl_mono
      unfold scanStep
      by_cases hac : ac.1 p.2 = false
      · rw [if_pos ⟨hac, hdiff⟩]; simp
      · rw [if_neg (fun hc => hac hc.1)]
        cases hb : ac.1 p.2
        · exact absurd hb hac
        · rfl
    · rw [List.foldl_cons]; exact ih _ p hmem hdiff

theorem scan_foldl_noop (s : CP) (sink : ℕ → Bool) (l : List (ℕ × ℕ)) :
    ∀ (ac : (ℕ → Bool) × ℕ),
      (∀ p ∈ l, ac.1 p.2 = true ∨ sink p.1 = sink (s.adj_vertices p.2)) →
      l.foldl (scanStep s sink) ac = ac := by
  induction l with
  | nil => intro ac _; rfl
  | cons q qs ih =>
    intro ac h
    have hq := h q (List.mem_cons_self q qs)
    have hstep : scanStep s sink ac q = ac := by
      unfold scanStep
      rcases hq with h1 | h1
      · rw [if_neg (fun hc => by rw [h1] at hc; exact absurd hc.1 (by simp))]
      · rw [if_neg (fun hc => hc.2 h1)]
    rw [List.foldl_cons, hstep]
    exact ih ac (fun p hp => h p (List.mem_cons_of_mem q hp))

theorem foldl_update_self {α : Type} (l : List ℕ) (f : ℕ → α)
    (t : ℕ → α) (x : ℕ) :
    (l.foldl (fun t v => Function.update t v (f v)) t) x =
      if x ∈ l then f x else t x := by
  induction l generalizing t with
  | nil => simp
  | cons b bs ih =>
    rw [List.foldl_cons, ih]
    by_cases hx : x ∈ bs
    · simp [hx]
    · by_cases hb : x = b
      · subst hb; simp [hx]
      · simp [hx, hb, Function.update_noteq hb]

theorem foldl_condupdate (s : CP) (act : ℕ → Bool) (l : List (ℕ × ℕ)) :
    ∀ (c : ℕ → ℚ) (e : ℕ),
      (l.foldl (fun c p => if act p.2 then c
        else Function.update c p.2 (s.ew p.2)) c) e =
      if e ∈ l.map Prod.snd ∧ act e = false then s.ew e else c e := by
  induction l with
  | nil => intro c e; simp
  | cons q qs ih =>
    intro c e
    rw [List.foldl_cons, ih]
    by_cases h1 : e ∈ qs.map Prod.snd ∧ act e = false
    · rw [if_pos h1,
        if_pos ⟨by rw [List.map_cons]; exact List.mem_cons_of_mem _ h1.1,
          h1.2⟩]
    · rw [if_neg h1]
      by_cases haq : act q.2 = true
      · have hc : ¬(e ∈ (q :: qs).map Prod.snd ∧ act e = false) := by
          intro ⟨hm, hf⟩
          rw [List.map_cons] at hm
          rcases List.mem_cons.mp hm with h | h
          · rw [h] at hf; rw [hf] at haq; exact Bool.false_ne_true haq
          · exact h1 ⟨h, hf⟩
        rw [if_pos haq, if_neg hc]
      · have haq' : act q.2 = false := by
          cases hb : act q.2
          · rfl
          · exact absurd hb haq
        by_cases heq : e = q.2
        · subst heq
          rw [if_neg haq, Function.update_same,
            if_pos ⟨by rw [List.map_cons]; exact List.mem_cons_self _ _,
              haq'⟩]
        · have hc : ¬(e ∈ (q :: qs).map Prod.snd ∧ act e = false) := by
            intro ⟨hm, hf⟩
            rw [List.map_cons] at hm
            rcases List.mem_cons.mp hm with h | h
            · exact heq h
            · exact h1 ⟨h, hf⟩
          rw [if_neg haq, Function.update_noteq heq, if_neg hc]

/-- `splitComp` never deactivates an edge. -/
theorem splitComp_active_mono (s : CP) (oracle : Oracle) (g : ℕ → ℚ)
    (st : SplitSt) (rv : ℕ) (e : ℕ) (h : st.active e = true) :
    (splitComp s oracle g st rv).active e = true := by
  unfold splitComp
  split
  · exact h
  · split
    · exact scan_foldl_mono s _ _ (st.active, 0) e h
    · exact scan_foldl_mono s _ _ _ e
        (scan_foldl_mono s _ _ (st.active, 0) e h)

/-- C5: edge activation is monotone non-decreasing under `split` — every
edge active before a call is still active after it — and remains so across
arbitrarily many repeated `split` calls on a fixed partition. -/
theorem split_active_monotone (s : CP) (oracle : Oracle) (caps0 : FlowCaps)
    (ps : List (Oracle × FlowCaps)) (e : ℕ) :
    (s.active e = true → (split s oracle caps0).active e = true) ∧
    (s.active e = true → (splitIter s ps).active e = true) := by
  constructor
  · intro h
    exact foldl_invariant (splitComp s oracle (grad s))
      (fun st => st.active e = true) (List.range s.rV)
      (fun st rv hst => splitComp_active_mono s oracle (grad s) st rv e hst)
      _ h
  · intro h
    induction ps generalizing s with
    | nil => exact h
    | cons p pps ih =>
      refine ih (applySplit s p.1 p.2) ?_
      show (split s p.1 p.2).active e = true
      exact foldl_invariant (splitComp s p.1 (grad s))
        (fun st => st.active e = true) (List.range s.rV)
        (fun st rv hst => splitComp_active_mono s p.1 (grad s) st rv e hst)
        _ h

theorem split_active_monotone_witness :
    CP.spl1.active 0 = true ∧
    (split CP.spl1 (fun _ _ _ _ => false) ⟨fun _ => .fin 0, fun _ => 0⟩).active
      0 = true ∧
    (splitIter CP.spl1
      [((fun _ _ _ _ => false), ⟨fun _ => .fin 0, fun _ => 0⟩),
       ((fun _ _ _ _ => true), ⟨fun _ => .fin 0, fun _ => 0⟩)]).active
      0 = true := by
  have h := split_active_monotone CP.spl1 (fun _ _ _ _ => false)
    ⟨fun _ => .fin 0, fun _ => 0⟩
    [((fun _ _ _ _ => false), ⟨fun _ => .fin 0, fun _ => 0⟩),
     ((fun _ _ _ _ => true), ⟨fun _ => .fin 0, fun _ => 0⟩)] 0
  exact ⟨by decide, h.1 (by decide), h.2 (by decide)⟩

/-- `splitComp` only touches the saturation flag and activation count of
the component it processes. -/
theorem splitComp_untouched (s : CP) (oracle : Oracle) (g : ℕ → ℚ)
    (st : SplitSt) (rv u : ℕ) (h : u ≠ rv) :
    (splitComp s oracle g st rv).saturated u = st.saturated u ∧
    (splitComp s oracle g st rv).percomp u = st.percomp u := by
  unfold splitComp
  split
  · exact ⟨rfl, rfl⟩
  · split
    · exact ⟨Function.update_noteq h _ _, Function.update_noteq h _ _⟩
    · exact ⟨Function.update_noteq h _ _, Function.update_noteq h _ _⟩

/-- processing a non-saturated component records its saturation flag as
"activation count is zero". -/
theorem splitComp_sets (s : CP) (oracle : Oracle) (g : ℕ → ℚ)
    (st : SplitSt) (rv : ℕ) (h : st.saturated rv = false) :
    (splitComp s oracle g st rv).saturated rv =
      decide ((splitComp s oracle g st rv).percomp rv = 0) := by
  unfold splitComp
  rw [h]
  simp only [Bool.false_eq_true, if_false]
  split
  · simp [Function.update_same]
  · simp [Function.update_same]

/-- the per-component consistency "saturated ↔ zero recorded activations"
is preserved by processing any component. -/
theorem splitComp_keeps (s : CP) (oracle : Oracle) (g : ℕ → ℚ)
    (st : SplitSt) (rv u : ℕ)
    (h : st.saturated u = decide (st.percomp u = 0)) :
    (splitComp s oracle g st rv).saturated u =
      decide ((splitComp s oracle g st rv).percomp u = 0) := by
  by_cases hu : u = rv
  · subst hu
    cases hb : st.saturated u
    · exact splitComp_sets s oracle g st u hb
    · unfold splitComp
      rw [hb]
      simp only [if_true]
      exact h
  · obtain ⟨h1, h2⟩ := splitComp_untouched s oracle g st rv u hu
    rw [h1, h2]
    exact h

theorem split_fold_saturation (s : CP) (oracle : Oracle) (g : ℕ → ℚ)
    (rv : ℕ) :
    ∀ (l : List ℕ) (st : SplitSt),
      ((rv ∈ l ∧ st.saturated rv = false) ∨
        st.saturated rv = decide (st.percomp rv = 0)) →
      (l.foldl (splitComp s oracle g) st).saturated rv =
        decide ((l.foldl (splitComp s oracle g) st).percomp rv = 0) := by
  intro l
  induction l with
  | nil =>
    intro st h
    rcases h with ⟨hmem, _⟩ | hQ
    · exact absurd hmem (List.not_mem_nil rv)
    · exact hQ
  | cons x xs ih =>
    intro st h
    rw [List.foldl_cons]
    rcases h with ⟨hmem, hfalse⟩ | hQ
    · by_cases hx : x = rv
      · subst hx
        exact ih _ (Or.inr (splitComp_sets s oracle g st x hfalse))
      · rcases List.mem_cons.mp hmem with heq | hmem'
        · exact absurd heq.symm hx
        · obtain ⟨h1, _⟩ :=
            splitComp_untouched s oracle g st x rv (fun he => hx he.symm)
          exact ih _ (Or.inl ⟨hmem', h1.trans hfalse⟩)
    · exact ih _ (Or.inr (splitComp_keeps s oracle g st x rv hQ))

/-- C4: for every component not saturated at entry, after `split` returns
the component's saturation flag is true exactly when the total number of
edges newly activated for it across both min-cut directions (the recorded
`rv_activation`) is zero. -/
theorem split_saturation_iff_no_activation (s : CP) (oracle : Oracle)
    (caps0 : FlowCaps) (rv : ℕ) (hrv : rv < s.rV)
    (hsat : s.saturated rv = false) :
    (split s oracle caps0).saturated rv =
      decide ((split s oracle caps0).percomp rv = 0) := by
  unfold split
  exact split_fold_saturation s oracle (grad s) rv (List.range s.rV) _
    (Or.inl ⟨List.mem_range.mpr hrv, hsat⟩)

theorem split_saturation_iff_no_activation_witness :
    0 < CP.spl1.rV ∧ CP.spl1.saturated 0 = false ∧
    (split CP.spl1 (fun _ _ _ _ => false)
      ⟨fun _ => .fin 0, fun _ => 0⟩).saturated 0 =
    decide ((split CP.spl1 (fun _ _ _ _ => false)
      ⟨fun _ => .fin 0, fun _ => 0⟩).percomp 0 = 0) :=
  ⟨by decide, by decide,
    split_saturation_iff_no_activation CP.spl1 (fun _ _ _ _ => false)
      ⟨fun _ => .fin 0, fun _ => 0⟩ 0 (by decide) (by decide)⟩

theorem noNonDiff_props (s : CP) (h : noNonDiff s = true) :
    s.l1_weights = none ∧ s.homo_l1_weight = 0 ∧ s.low_bnd = none ∧
    s.upp_bnd = none ∧ s.homo_low_bnd = XQ.ninf ∧
    s.homo_upp_bnd = XQ.pinf := by
  unfold noNonDiff at h
  simp only [Bool.and_eq_true, decide_eq_true_eq,
    Option.isNone_iff_eq_none] at h
  exact ⟨h.1.1.1.1.1, h.1.1.1.1.2, h.1.1.1.2, h.1.1.2, h.1.2, h.2⟩

theorem setTermGrad_apply (s : CP) (g : ℕ → ℚ) (rv : ℕ) (t : ℕ → XQ)
    (x : ℕ) :
    setTermGrad s g rv t x =
      if x ∈ vertList s rv then XQ.fin (g x) else t x :=
  foldl_update_self (vertList s rv) (fun v => XQ.fin (g v)) t x

theorem setEdgeCaps_apply (s : CP) (rv : ℕ) (act : ℕ → Bool) (c : ℕ → ℚ)
    (e : ℕ) :
    setEdgeCaps s rv act c e =
      if e ∈ (visitPairs s rv).map Prod.snd ∧ act e = false then s.ew e
      else c e :=
  foldl_condupdate s act (visitPairs s rv) c e

theorem addTermL1_id (s : CP) (sign : ℚ) (rv : ℕ) (t : ℕ → XQ)
    (h1 : s.l1_weights = none) (h2 : s.homo_l1_weight = 0) :
    addTermL1 s sign rv t = t := by
  unfold addTermL1
  rw [if_neg]
  simp [h1, h2]

theorem setTermUpp_id (s : CP) (rv : ℕ) (t : ℕ → XQ)
    (h1 : s.upp_bnd = none) (h2 : s.homo_upp_bnd = XQ.pinf) :
    setTermUpp s rv t = t := by
  unfold setTermUpp
  rw [h1]
  rw [if_neg]
  simp [h2, XQ.blt]

theorem setTermLow_id (s : CP) (rv : ℕ) (t : ℕ → XQ)
    (h1 : s.low_bnd = none) (h2 : s.homo_low_bnd = XQ.ninf) :
    setTermLow s rv t = t := by
  unfold setTermLow
  rw [h1]
  rw [if_neg]
  simp [h2, XQ.blt]

theorem setTermGrad_idem (s : CP) (g : ℕ → ℚ) (rv : ℕ) (t : ℕ → XQ) :
    setTermGrad s g rv (setTermGrad s g rv t) = setTermGrad s g rv t := by
  funext x
  rw [setTermGrad_apply, setTermGrad_apply]
  by_cases hx : x ∈ vertList s rv
  · simp [hx]
  · simp [hx]

theorem setEdgeCaps_scan_absorb (s : CP) (rv : ℕ) (sink : ℕ → Bool)
    (act0 : ℕ → Bool) (c0 : ℕ → ℚ) :
    setEdgeCaps s rv (activateScan s rv sink (act0, 0)).1
      (setEdgeCaps s rv act0 c0) = setEdgeCaps s rv act0 c0 := by
  funext e
  rw [setEdgeCaps_apply s rv (activateScan s rv sink (act0, 0)).1]
  by_cases hm : e ∈ (visitPairs s rv).map Prod.snd ∧
      (activateScan s rv sink (act0, 0)).1 e = false
  · rw [if_pos hm, setEdgeCaps_apply]
    have hact0 : act0 e = false := by
      cases hb : act0 e
      · rfl
      · have hmono := scan_foldl_mono s sink (visitPairs s rv) (act0, 0) e hb
        rw [show (activateScan s rv sink (act0, 0)).1 =
          ((visitPairs s rv).foldl (scanStep s sink) (act0, 0)).1 from rfl]
          at hm
        rw [hmono] at hm
        exact absurd hm.2 (by simp)
    rw [if_pos ⟨hm.1, hact0⟩]
  · rw [if_neg hm]

theorem activateScan_second_noop (s : CP) (rv : ℕ) (sink : ℕ → Bool)
    (act0 : ℕ → Bool) :
    activateScan s rv sink
      ((activateScan s rv sink (act0, 0)).1,
        (activateScan s rv sink (act0, 0)).2) =
      ((activateScan s rv sink (act0, 0)).1,
        (activateScan s rv sink (act0, 0)).2) := by
  apply scan_foldl_noop
  intro p hp
  by_cases hdiff : sink p.1 = sink (s.adj_vertices p.2)
  · exact Or.inr hdiff
  · exact Or.inl (scan_foldl_complete s sink (visitPairs s rv)
      (act0, 0) p hp hdiff)

/-- under the preconditions of the one-cut optimization, a single
processing step equals the spec's two-cut step: the second cut receives
exactly the same restricted vertex list, terminal capacities and edge
capacities as the first (the l1 and box adjustments are skipped and the
grad overwrite is idempotent; edge capacities persist on edges the first
cut activated), so the deterministic engine returns the same cut and the
second activation scan finds nothing new. -/
theorem splitComp_eq_twoCut (s : CP) (oracle : Oracle) (g : ℕ → ℚ)
    (st : SplitSt) (rv : ℕ) (h : noNonDiff s = true) :
    splitComp s oracle g st rv = splitCompTwoCut s oracle g st rv := by
  obtain ⟨hl1, hhom, hlb, hub, hhl, hhu⟩ := noNonDiff_props s h
  have hadd : ∀ (sign : ℚ) (t : ℕ → XQ), addTermL1 s sign rv t = t :=
    fun sign t => addTermL1_id s sign rv t hl1 hhom
  have huppid : ∀ t : ℕ → XQ, setTermUpp s rv t = t :=
    fun t => setTermUpp_id s rv t hub hhu
  have hlowid : ∀ t : ℕ → XQ, setTermLow s rv t = t :=
    fun t => setTermLow_id s rv t hlb hhl
  simp only [splitComp, splitCompTwoCut, hadd, huppid, hlowid]
  by_cases hsat : st.saturated rv = true
  · rw [if_pos hsat, if_pos hsat]
  · rw [if_neg hsat, if_neg hsat, if_pos h, setTermGrad_idem,
      setEdgeCaps_scan_absorb]
    rw [show activateScan s rv
        (oracle (vertList s rv) (setTermGrad s g rv st.caps.term)
          (setEdgeCaps s rv st.active st.caps.ecap))
        ((activateScan s rv
          (oracle (vertList s rv) (setTermGrad s g rv st.caps.term)
            (setEdgeCaps s rv st.active st.caps.ecap)) (st.active, 0)).1,
         (activateScan s rv
          (oracle (vertList s rv) (setTermGrad s g rv st.caps.term)
            (setEdgeCaps s rv st.active st.caps.ecap)) (st.active, 0)).2) =
        ((activateScan s rv
          (oracle (vertList s rv) (setTermGrad s g rv st.caps.term)
            (setEdgeCaps s rv st.active st.caps.ecap)) (st.active, 0)).1,
         (activateScan s rv
          (oracle (vertList s rv) (setTermGrad s g rv st.caps.term)
            (setEdgeCaps s rv st.active st.caps.ecap)) (st.active, 0)).2)
      from activateScan_second_noop s rv _ st.active]

/-- C9: when no l1 term and no box constraint is configured, `split`
computes only the first (direction `+1`) min-cut per component — the
source's early-`continue` branch — and this one-cut path produces exactly
the same outcome (edge activations, saturation flags, activation counts)
as the spec's two-cut path. -/
theorem split_eq_twoCut (s : CP) (oracle : Oracle) (caps0 : FlowCaps)
    (h : noNonDiff s = true) :
    split s oracle caps0 = splitTwoCut s oracle caps0 := by
  unfold split splitTwoCut
  rw [funext (fun st => funext (fun rv =>
    splitComp_eq_twoCut s oracle (grad s) st rv h))]

theorem split_eq_twoCut_witness :
    noNonDiff CP.spl1 = true ∧
    split CP.spl1 (fun _ _ _ v => v = 0) ⟨fun _ => .fin 0, fun _ => 0⟩ =
      splitTwoCut CP.spl1 (fun _ _ _ v => v = 0)
        ⟨fun _ => .fin 0, fun _ => 0⟩ :=
  ⟨by decide, split_eq_twoCut CP.spl1 (fun _ _ _ v => decide (v = 0))
    ⟨fun _ => .fin 0, fun _ => 0⟩ (by decide)⟩

/-- C6 counterexample: with identical values across the two rounds but a
component whose saturation flag is false at entry, `compute_evolution`
reports zero saturated components, not all of them — the monitor only
counts components already flagged saturated and never grants the flag.
Concrete input: one vertex, one component, `rX = last_rX = 0`, flag
false. -/
theorem compute_evolution_not_all_saturated :
    (∀ rv < CP.default0.rV, ∀ i < CP.default0.first_vertex (rv+1),
      CP.default0.first_vertex rv ≤ i →
      CP.default0.last_rX
        (CP.default0.tmp_comp_assign (CP.default0.comp_list i)) =
        CP.default0.rX rv) ∧
    (compute_evolution CP.default0 true).satCount ≠ CP.default0.rV := by
  refine ⟨by decide, ?_⟩
  show (compute_evolution CP.default0 true).satCount ≠ 1
  have : (compute_evolution CP.default0 true).satCount = 0 := rfl
  rw [this]
  decide

theorem evoStep_sat_true (s : CP) (cd : Bool) (r : EvoResult) (m : ℕ)
    (hsat : r.saturated m = true)
    (hlr : s.last_rX (s.tmp_comp_assign (s.comp_list (s.first_vertex m))) =
      s.rX m)
    (htol : 0 ≤ s.dif_tol) :
    (evoStep s cd r m).saturated = r.saturated ∧
    (evoStep s cd r m).difSq = r.difSq ∧
    (evoStep s cd r m).satCount = r.satCount + 1 := by
  unfold evoStep
  rw [hsat]
  simp only [if_true, hlr, sub_self, abs_zero]
  rw [if_neg (not_lt.mpr (mul_nonneg (abs_nonneg _) htol))]
  cases cd
  · simp
  · simp

theorem evoStep_sat_false (s : CP) (cd : Bool) (r : EvoResult) (m : ℕ)
    (hsat : r.saturated m = false)
    (hall : ∀ i ∈ compPos s m,
      s.last_rX (s.tmp_comp_assign (s.comp_list i)) = s.rX m) :
    (evoStep s cd r m).saturated = r.saturated ∧
    (evoStep s cd r m).difSq = r.difSq ∧
    (evoStep s cd r m).satCount = r.satCount := by
  unfold evoStep
  rw [hsat]
  simp only [Bool.false_eq_true, if_false]
  cases cd
  · simp
  · rw [if_pos rfl]
    refine ⟨rfl, ?_, rfl⟩
    have hz : ∑ i in compPos s m,
        (s.rX m - s.last_rX (s.tmp_comp_assign (s.comp_list i))) *
          (s.rX m - s.last_rX (s.tmp_comp_assign (s.comp_list i))) = 0 :=
      Finset.sum_eq_zero (fun i hi => by rw [hall i hi, sub_self, mul_zero])
    rw [hz, add_zero]

/-- C6 (amended): if the per-vertex values are identical across two
consecutive rounds, `compute_evolution` accumulates a zero squared
difference — so the returned normalized value
(`sqrt(dif)/amp` or `sqrt(dif)/eps`, both with positive denominator in
well-posed states) is exactly `0`, as the last conjunct states for any
square root `d` of the accumulated value — the saturation flags are left
unchanged, and the number of components reported saturated is the number
of components already flagged saturated at entry (unsaturated components
are not granted the flag). -/
theorem compute_evolution_identical (s : CP) (compute_dif : Bool)
    (hid : ∀ rv < s.rV, ∀ i < s.first_vertex (rv+1),
      s.first_vertex rv ≤ i →
      s.last_rX (s.tmp_comp_assign (s.comp_list i)) = s.rX rv)
    (hne : ∀ rv < s.rV, s.first_vertex rv < s.first_vertex (rv+1))
    (htol : 0 ≤ s.dif_tol) :
    (compute_evolution s compute_dif).difSq = 0 ∧
    (compute_evolution s compute_dif).saturated = s.saturated ∧
    (compute_evolution s compute_dif).satCount =
      ((List.range s.rV).filter (fun rv => s.saturated rv)).length ∧
    (∀ d : ℚ, d * d = (compute_evolution s compute_dif).difSq →
      ∀ amp eps : ℚ, 0 < eps →
        (amp > eps → d / amp = 0) ∧ (¬(amp > eps) → d / eps = 0)) := by
  have main : ∀ n, n ≤ s.rV →
      ((List.range n).foldl (evoStep s compute_dif)
        ⟨0, 0, 0, s.saturated⟩).difSq = 0 ∧
      ((List.range n).foldl (evoStep s compute_dif)
        ⟨0, 0, 0, s.saturated⟩).saturated = s.saturated ∧
      ((List.range n).foldl (evoStep s compute_dif)
        ⟨0, 0, 0, s.saturated⟩).satCount =
        ((List.range n).filter (fun rv => s.saturated rv)).length := by
    intro n
    induction n with
    | zero => intro _; exact ⟨rfl, rfl, rfl⟩
    | succ m ih =>
      intro hm
      have hmlt : m < s.rV := hm
      obtain ⟨ih1, ih2, ih3⟩ := ih (le_of_lt hmlt)
      rw [List.range_succ, List.foldl_append, List.foldl_cons,
        List.foldl_nil]
      have hcount : ((List.range m ++ [m]).filter
            (fun rv => s.saturated rv)).length =
          ((List.range m).filter (fun rv => s.saturated rv)).length +
            (if s.saturated m then 1 else 0) := by
        rw [List.filter_append, List.length_append]
        congr 1
        cases hb : s.saturated m
        · simp [List.filter, hb]
        · simp [List.filter, hb]
      cases hb : s.saturated m
      · obtain ⟨e1, e2, e3⟩ := evoStep_sat_false s compute_dif _ m
          (by rw [ih2]; exact hb)
          (fun i hi => by
            obtain ⟨hi1, hi2⟩ := Finset.mem_Ico.mp hi
            exact hid m hmlt i hi2 hi1)
        rw [hcount, hb]
        exact ⟨by rw [e2, ih1], by rw [e1, ih2], by rw [e3, ih3]; simp⟩
      · obtain ⟨e1, e2, e3⟩ := evoStep_sat_true s compute_dif _ m
          (by rw [ih2]; exact hb)
          (hid m hmlt (s.first_vertex m) (hne m hmlt) (le_refl _))
          htol
        rw [hcount, hb]
        exact ⟨by rw [e2, ih1], by rw [e1, ih2], by rw [e3, ih3]; simp⟩
  obtain ⟨m1, m2, m3⟩ := main s.rV (le_refl _)
  refine ⟨m1, m2, m3, ?_⟩
  intro d hd amp eps heps
  have hdz : d * d = 0 := by rw [hd]; exact m1
  have hd0 : d = 0 := mul_self_eq_zero.mp hdz
  subst hd0
  exact ⟨fun _ => zero_div amp, fun _ => zero_div eps⟩

theorem compute_evolution_identical_witness :
    (compute_evolution { CP.default0 with saturated := fun _ => true }
      true).difSq = 0 ∧
    (compute_evolution { CP.default0 with saturated := fun _ => true }
      true).satCount = 1 := by
  have h := compute_evolution_identical
    { CP.default0 with saturated := fun _ => true } true
    (by decide) (by decide) (by norm_num [CP.default0])
  refine ⟨h.1, ?_⟩
  rw [h.2.2.1]
  decide

end CpQl1b
